import Mathlib

/-!
Verification development for the PrimeVue MCP extraction-and-merge pipeline.

The development shallowly embeds the repository's TypeScript modules:

* `scripts/merge_data.ts` — `mergeDatasets`, combining the four extractor
  outputs (`api`, `docs`, `logic`, `tokens`) into one JSON object;
* `scripts/extract_logic.ts` — `extractLogicFromFile`, the regex-based
  logic-signal extractor;
* the token extractor — `extractTokensFromFile` and its main file loop;
* `src/index.ts` (the Express query API) — the `/mcp/components`,
  `/mcp/component/:name` and `/mcp/search` handlers and the memoization
  helpers `isCacheValid` / `getCachedOrCompute`;
* `src/mcp-server.ts` (the MCP tool server) — `searchComponents`,
  `getComponent`, `listComponents`.

JavaScript objects are embedded as insertion-ordered association lists,
JSON values as the inductive `Json`, and JavaScript truthiness, property
access, `Object.keys`, `Object.entries` and object spread are modelled
explicitly.  Handler code paths that can raise a `TypeError` (calling
`.toLowerCase()` on a non-string field) are embedded in `Except Unit`.
-/

/-! ## Association lists: the embedding of insertion-ordered JS objects -/

/-- First-occurrence lookup in an association list, the embedding of JS
property read `o[k]` (`none` embeds `undefined`). -/
def alookup {α : Type} : List (String × α) → String → Option α
  | [], _ => none
  | (k1, v) :: rest, k => if k1 = k then some v else alookup rest k

/-- The embedding of JS property write `o[k] = v`: an existing key keeps its
position and gets the new value, a fresh key is appended. -/
def ainsert {α : Type} : List (String × α) → String → α → List (String × α)
  | [], k, v => [(k, v)]
  | (k1, v1) :: rest, k, v =>
    if k1 = k then (k1, v) :: rest else (k1, v1) :: ainsert rest k v

/-- Sequentially writing a list of key-value pairs into `base`: the embedding
of object spread `{...base, ...kvs}` and of `Object.assign(base, kvs)`. -/
def aextend {α : Type} (base : List (String × α)) (kvs : List (String × α)) :
    List (String × α) :=
  kvs.foldl (fun acc p => ainsert acc p.1 p.2) base

theorem alookup_ainsert {α : Type} (o : List (String × α)) (k : String) (v : α)
    (k2 : String) :
    alookup (ainsert o k v) k2 = if k2 = k then some v else alookup o k2 := by
  induction o with
  | nil =>
    by_cases h : k2 = k
    · subst h; simp [ainsert, alookup]
    · simp [ainsert, alookup, h, Ne.symm h]
  | cons p rest ih =>
    obtain ⟨k1, v1⟩ := p
    by_cases h1 : k1 = k
    · subst h1
      by_cases h2 : k2 = k1
      · subst h2; simp [ainsert, alookup]
      · simp [ainsert, alookup, h2, Ne.symm h2]
    · by_cases h2 : k2 = k1
      · subst h2
        simp [ainsert, alookup, h1]
      · simp [ainsert, alookup, h1, h2, Ne.symm h2, ih]

theorem keys_ainsert {α : Type} (o : List (String × α)) (k : String) (v : α) :
    (ainsert o k v).map Prod.fst =
      if k ∈ o.map Prod.fst then o.map Prod.fst else o.map Prod.fst ++ [k] := by
  induction o with
  | nil => simp [ainsert]
  | cons p rest ih =>
    obtain ⟨k1, v1⟩ := p
    by_cases h1 : k1 = k
    · subst h1; simp [ainsert]
    · simp only [ainsert, if_neg h1, List.map_cons, List.mem_cons, ih]
      by_cases h2 : k ∈ rest.map Prod.fst
      · simp [h2]
      · simp [h2, Ne.symm h1]

theorem alookup_mem {α : Type} {o : List (String × α)} {k : String} {v : α}
    (h : alookup o k = some v) : (k, v) ∈ o := by
  induction o with
  | nil => simp [alookup] at h
  | cons p rest ih =>
    obtain ⟨k1, v1⟩ := p
    by_cases h1 : k1 = k
    · subst h1
      simp [alookup] at h
      simp [h]
    · simp [alookup, h1] at h
      exact List.mem_cons_of_mem _ (ih h)

theorem alookup_isSome_of_mem_keys {α : Type} {o : List (String × α)} {k : String}
    (h : k ∈ o.map Prod.fst) : (alookup o k).isSome = true := by
  induction o with
  | nil => simp at h
  | cons p rest ih =>
    obtain ⟨k1, v1⟩ := p
    rw [List.map_cons, List.mem_cons] at h
    by_cases h1 : k1 = k
    · simp [alookup, h1]
    · rcases h with h | h
      · exact absurd h.symm h1
      · simp only [alookup, if_neg h1]
        exact ih h

/-! ## First-seen deduplication: the embedding of `Array.from(new Set(xs))` -/

/-- Helper for `dedupFirst`, carrying the set of already-kept entries. -/
def dedupAux : List String → List String → List String
  | [], _ => []
  | x :: xs, seen => if x ∈ seen then dedupAux xs seen else x :: dedupAux xs (x :: seen)

/-- The embedding of `Array.from(new Set(xs))`: keep the first occurrence of
each entry, in first-seen order. -/
def dedupFirst (l : List String) : List String := dedupAux l []

theorem mem_dedupAux {l seen : List String} {x : String} :
    x ∈ dedupAux l seen ↔ x ∈ l ∧ x ∉ seen := by
  induction l generalizing seen with
  | nil => simp [dedupAux]
  | cons y ys ih =>
    by_cases h : y ∈ seen
    · simp only [dedupAux, if_pos h, ih, List.mem_cons]
      constructor
      · rintro ⟨hx, hs⟩; exact ⟨Or.inr hx, hs⟩
      · rintro ⟨hx | hx, hs⟩
        · subst hx; exact absurd h hs
        · exact ⟨hx, hs⟩
    · simp only [dedupAux, if_neg h, List.mem_cons, ih]
      constructor
      · rintro (hx | ⟨hx, hs⟩)
        · subst hx; exact ⟨Or.inl rfl, h⟩
        · simp at hs
          exact ⟨Or.inr hx, hs.2⟩
      · rintro ⟨hx | hx, hs⟩
        · subst hx; exact Or.inl rfl
        · by_cases hxy : x = y
          · subst hxy; exact Or.inl rfl
          · exact Or.inr ⟨hx, by simp [hxy, hs]⟩

theorem mem_dedupFirst {l : List String} {x : String} :
    x ∈ dedupFirst l ↔ x ∈ l := by
  simp [dedupFirst, mem_dedupAux]

theorem nodup_dedupAux (l : List String) (seen : List String) :
    (dedupAux l seen).Nodup := by
  induction l generalizing seen with
  | nil => simp [dedupAux]
  | cons y ys ih =>
    by_cases h : y ∈ seen
    · simpa [dedupAux, if_pos h] using ih seen
    · simp only [dedupAux, if_neg h]
      refine List.nodup_cons.mpr ⟨fun hmem => ?_, ih (y :: seen)⟩
      have := mem_dedupAux.mp hmem
      simp at this

theorem nodup_dedupFirst (l : List String) : (dedupFirst l).Nodup :=
  nodup_dedupAux l []

theorem pairwise_indexOf_dedupAux (l : List String) (seen : List String) :
    (dedupAux l seen).Pairwise (fun a b => l.indexOf a < l.indexOf b) := by
  induction l generalizing seen with
  | nil => simp [dedupAux]
  | cons y ys ih =>
    have step : ∀ seen2 : List String, y ∈ seen2 → (dedupAux ys seen2).Pairwise
        (fun a b => (y :: ys).indexOf a < (y :: ys).indexOf b) := by
      intro seen2 hy
      refine List.Pairwise.imp_of_mem ?_ (ih seen2)
      intro a b ha hb hab
      have hane : y ≠ a := by
        intro hya; subst hya; exact absurd hy (mem_dedupAux.mp ha).2
      have hbne : y ≠ b := by
        intro hyb; subst hyb; exact absurd hy (mem_dedupAux.mp hb).2
      rw [List.indexOf_cons_ne ys hane, List.indexOf_cons_ne ys hbne]
      omega
    by_cases h : y ∈ seen
    · simpa [dedupAux, if_pos h] using step seen h
    · simp only [dedupAux, if_neg h]
      refine List.Pairwise.cons ?_ (step (y :: seen) (List.mem_cons_self y seen))
      intro b hb
      have hbne : y ≠ b := by
        have := (mem_dedupAux.mp hb).2
        intro hby; subst hby; simp at this
      rw [List.indexOf_cons_self, List.indexOf_cons_ne ys hbne]
      omega

theorem pairwise_indexOf_dedupFirst (l : List String) :
    (dedupFirst l).Pairwise (fun a b => l.indexOf a < l.indexOf b) :=
  pairwise_indexOf_dedupAux l []

/-! ## Strings: the embeddings of `toLowerCase` and `includes` -/

/-- The embedding of `s.toLowerCase()` (ASCII case folding, applied
character by character). -/
def lowerStr (s : String) : String := String.mk (s.data.map Char.toLower)

/-- Substring containment on character lists. -/
def listIncludes (hay needle : List Char) : Bool :=
  hay.tails.any (fun t => needle.isPrefixOf t)

/-- The embedding of `hay.includes(needle)`. -/
def strIncludes (hay needle : String) : Bool := listIncludes hay.data needle.data

/-! ## JSON values and JavaScript value semantics -/

/-- A JSON value, the embedding of the `any`-typed data flowing through the
servers.  Objects are insertion-ordered association lists, numbers are
embedded as integers (every number occurring in the pipeline is a length or
an extracted integer literal). -/
inductive Json where
  | null : Json
  | bool (b : Bool) : Json
  | num (n : Int) : Json
  | str (s : String) : Json
  | arr (elems : List Json) : Json
  | obj (fields : List (String × Json)) : Json

/-- The embedding of the strict comparison `v === null`. -/
def jsIsNull : Json → Bool
  | .null => true
  | _ => false

/-- A JS object: the top-level shape `Record<string, any>` of every dataset. -/
abbrev JObj := List (String × Json)

/-- JavaScript truthiness of a value. -/
def Json.truthy : Json → Bool
  | .null => false
  | .bool b => b
  | .num n => !(n == 0)
  | .str s => !(s == "")
  | .arr _ => true
  | .obj _ => true

/-- Truthiness of a possibly-`undefined` value (`none` embeds `undefined`). -/
def optTruthy (v : Option Json) : Bool :=
  match v with
  | some j => j.truthy
  | none => false

/-- Named-property access `j[k]` on a JSON value: defined fields of objects,
`undefined` (`none`) otherwise. -/
def jget : Json → String → Option Json
  | .obj fs, k => alookup fs k
  | _, _ => none

/-- The embedding of `Object.keys`: field names of objects, index strings of
arrays and strings, empty for primitives. -/
def jsKeys : Json → List String
  | .obj fs => fs.map Prod.fst
  | .arr xs => (List.range xs.length).map (fun i => toString i)
  | .str s => (List.range s.length).map (fun i => toString i)
  | _ => []

/-- The embedding of `Object.entries`. -/
def jsEntries : Json → List (String × Json)
  | .obj fs => fs
  | .arr xs => xs.enum.map (fun p => (toString p.1, p.2))
  | .str s => s.data.enum.map (fun p => (toString p.1, Json.str (String.singleton p.2)))
  | _ => []

/-- Own enumerable key-value pairs taken by object spread `{...j}`. -/
def jsSpread : Json → List (String × Json)
  | .obj fs => fs
  | .arr xs => xs.enum.map (fun p => (toString p.1, p.2))
  | .str s => s.data.enum.map (fun p => (toString p.1, Json.str (String.singleton p.2)))
  | _ => []

/-- The embedding of `typeof v === "object"` (`null`, arrays and objects). -/
def typeofObject : Json → Bool
  | .obj _ => true
  | .arr _ => true
  | .null => true
  | _ => false

/-- The `.length` property of a value: array and string lengths, the `length`
field of an object, `undefined` otherwise. -/
def jsDotLength : Json → Option Json
  | .arr xs => some (.num xs.length)
  | .str s => some (.num s.length)
  | .obj fs => alookup fs ("length")
  | _ => none

/-! ## Merger (`scripts/merge_data.ts`, `mergeDatasets`)

The four inputs are the parsed contents of `api.json`, `docs.json`,
`logic.json` and `tokens.json` (each typed `Record<string, any>` in the
source, embedded as `JObj`). -/

/-- The pairs contributed by `...(v || {})` in an object literal: `undefined`
or falsy values spread nothing, otherwise the value's own enumerable
entries are taken. -/
def spreadOrEmpty (v : Option Json) : List (String × Json) :=
  match v with
  | none => []
  | some j => if j.truthy then jsSpread j else []

/-- One merged component record, the embedding of
`{...(docs[key] || {}), ...(api[key] || {}), ...(logic[key] ? {logic: logic[key]} : {})}`. -/
def mergeRecord (docs api logic : JObj) (key : String) : JObj :=
  let r1 := aextend [] (spreadOrEmpty (alookup docs key))
  let r2 := aextend r1 (spreadOrEmpty (alookup api key))
  match alookup logic key with
  | some lv => if lv.truthy then aextend r2 [(("logic"), lv)] else r2
  | none => r2

/-- The embedding of `mergeDatasets`: one record per key of the union of the
`api`, `docs` and `logic` key sets (a JS `Set`, insertion ordered), then the
whole token map under the reserved key `_tokens` when non-empty. -/
def mergeDatasets (api docs logic tokens : JObj) : JObj :=
  let allKeys := dedupFirst (api.map Prod.fst ++ docs.map Prod.fst ++ logic.map Prod.fst)
  let merged := allKeys.foldl
    (fun acc key => ainsert acc key (Json.obj (mergeRecord docs api logic key))) []
  if 0 < (tokens.map Prod.fst).length then ainsert merged ("_tokens") (Json.obj tokens)
  else merged

/-! Lemmas about building an object by writing one value per key. -/

theorem alookup_foldl_build_of_not_mem {g : String → Json} {ks : List String}
    {k : String} (h : k ∉ ks) (acc : JObj) :
    alookup (ks.foldl (fun acc key => ainsert acc key (g key)) acc) k = alookup acc k := by
  induction ks generalizing acc with
  | nil => rfl
  | cons y ys ih =>
    have hky : k ≠ y := by intro hk; subst hk; exact h (List.mem_cons_self k ys)
    have hys : k ∉ ys := fun hk => h (List.mem_cons_of_mem y hk)
    simp only [List.foldl_cons]
    rw [ih hys, alookup_ainsert, if_neg hky]

theorem alookup_foldl_build {g : String → Json} {ks : List String} {k : String}
    (hnd : ks.Nodup) (hmem : k ∈ ks) (acc : JObj) :
    alookup (ks.foldl (fun acc key => ainsert acc key (g key)) acc) k = some (g k) := by
  induction ks generalizing acc with
  | nil => simp at hmem
  | cons y ys ih =>
    simp only [List.foldl_cons]
    by_cases hky : k = y
    · subst hky
      have hknotin : k ∉ ys := (List.nodup_cons.mp hnd).1
      rw [alookup_foldl_build_of_not_mem hknotin, alookup_ainsert, if_pos rfl]
    · have hmem2 : k ∈ ys := by
        rcases List.mem_cons.mp hmem with h | h
        · exact absurd h hky
        · exact h
      exact ih (List.nodup_cons.mp hnd).2 hmem2 _

theorem keys_foldl_build {g : String → Json} {ks : List String}
    (hnd : ks.Nodup) (acc : JObj) (hfresh : ∀ k ∈ ks, k ∉ acc.map Prod.fst) :
    (ks.foldl (fun acc key => ainsert acc key (g key)) acc).map Prod.fst =
      acc.map Prod.fst ++ ks := by
  induction ks generalizing acc with
  | nil => simp
  | cons y ys ih =>
    simp only [List.foldl_cons]
    have hy : y ∉ acc.map Prod.fst := hfresh y (List.mem_cons_self y ys)
    have hkeys : (ainsert acc y (g y)).map Prod.fst = acc.map Prod.fst ++ [y] := by
      rw [keys_ainsert, if_neg hy]
    rw [ih (List.nodup_cons.mp hnd).2]
    · rw [hkeys]; simp
    · intro k hk
      rw [hkeys]
      intro hcon
      rcases List.mem_append.mp hcon with h | h
      · exact hfresh k (List.mem_cons_of_mem y hk) h
      · have : k = y := by simpa using h
        subst this
        exact (List.nodup_cons.mp hnd).1 hk

/-! Lemmas about field lookup in shallow-merged records. -/

theorem alookup_aextend {α : Type} (base : List (String × α)) (kvs : List (String × α))
    (hnd : (kvs.map Prod.fst).Nodup) (f : String) :
    alookup (aextend base kvs) f =
      (alookup kvs f).orElse (fun _ => alookup base f) := by
  induction kvs generalizing base with
  | nil => simp [aextend, alookup, Option.orElse]
  | cons p rest ih =>
    obtain ⟨k1, v1⟩ := p
    have hnd2 : (rest.map Prod.fst).Nodup := (List.nodup_cons.mp hnd).2
    have hk1 : k1 ∉ rest.map Prod.fst := (List.nodup_cons.mp hnd).1
    simp only [aextend, List.foldl_cons] at *
    rw [ih (ainsert base k1 v1) hnd2]
    by_cases hf : f = k1
    · subst hf
      have : alookup rest f = none := by
        cases hlook : alookup rest f with
        | none => rfl
        | some v =>
          exact absurd (List.mem_map.mpr ⟨(f, v), alookup_mem hlook, rfl⟩) hk1
      rw [this, alookup_ainsert, if_pos rfl]
      simp [alookup, Option.orElse]
    · rw [alookup_ainsert, if_neg hf]
      simp [alookup, Ne.symm hf, hf, Option.orElse]

/-- Well-formedness of an extractor output per the data model: every value is
a JSON object (a per-component record) with distinct field names, as produced
by `JSON.parse` of the extractors' outputs. -/
def wfSource (o : JObj) : Prop :=
  ∀ p ∈ o, ∃ fs, p.2 = Json.obj fs ∧ (fs.map Prod.fst).Nodup

theorem alookup_aextend_nil {α : Type} (kvs : List (String × α))
    (hnd : (kvs.map Prod.fst).Nodup) (f : String) :
    alookup (aextend [] kvs) f = alookup kvs f := by
  rw [alookup_aextend [] kvs hnd f]
  cases alookup kvs f <;> simp [alookup, Option.orElse]

theorem spreadOrEmpty_wf {o : JObj} (hwf : wfSource o) (k : String) :
    (alookup o k = none ∧ spreadOrEmpty (alookup o k) = []) ∨
    (∃ fs, alookup o k = some (Json.obj fs) ∧ (fs.map Prod.fst).Nodup ∧
      spreadOrEmpty (alookup o k) = fs) := by
  cases hlook : alookup o k with
  | none => exact Or.inl ⟨rfl, rfl⟩
  | some v =>
    obtain ⟨fs, hfs, hnd⟩ := hwf (k, v) (alookup_mem hlook)
    subst hfs
    exact Or.inr ⟨fs, rfl, hnd, by simp [spreadOrEmpty, Json.truthy, jsSpread]⟩

theorem alookup_mergeRecord {docs api logic : JObj}
    (hdocs : wfSource docs) (hapi : wfSource api) (hlogic : wfSource logic)
    (k f : String) :
    alookup (mergeRecord docs api logic k) f =
      if f = ("logic") ∧ (alookup logic k).isSome then alookup logic k
      else ((alookup api k).bind (fun j => jget j f)).orElse
           (fun _ => (alookup docs k).bind (fun j => jget j f)) := by
  have hdocs2 := spreadOrEmpty_wf hdocs k
  have hapi2 := spreadOrEmpty_wf hapi k
  have base : alookup (aextend (aextend [] (spreadOrEmpty (alookup docs k)))
      (spreadOrEmpty (alookup api k))) f =
      ((alookup api k).bind (fun j => jget j f)).orElse
        (fun _ => (alookup docs k).bind (fun j => jget j f)) := by
    rcases hdocs2 with ⟨hd, hds⟩ | ⟨dfs, hd, hdnd, hds⟩
    · rcases hapi2 with ⟨ha, has⟩ | ⟨afs, ha, hand, has⟩
      · rw [hds, has, hd, ha]
        simp [aextend, alookup, Option.orElse]
      · rw [hds, has, hd, ha]
        have h0 : aextend (aextend ([] : JObj) []) afs = aextend [] afs := rfl
        rw [h0, alookup_aextend_nil afs hand f]
        cases h : alookup afs f <;> simp [Option.orElse, jget, h]
    · rcases hapi2 with ⟨ha, has⟩ | ⟨afs, ha, hand, has⟩
      · rw [hds, has, hd, ha]
        have h0 : aextend (aextend ([] : JObj) dfs) [] = aextend [] dfs := rfl
        rw [h0, alookup_aextend_nil dfs hdnd f]
        cases h : alookup dfs f <;> simp [Option.orElse, jget, h]
      · rw [hds, has, hd, ha]
        rw [alookup_aextend _ _ hand f, alookup_aextend_nil dfs hdnd f]
        simp [jget]
  cases hlook : alookup logic k with
  | none =>
    simp only [mergeRecord, hlook, Option.isSome_none]
    rw [base]
    simp
  | some lv =>
    obtain ⟨lfs, hlfs, _⟩ := hlogic (k, lv) (alookup_mem hlook)
    subst hlfs
    simp only [mergeRecord, hlook, Json.truthy, if_true]
    rw [alookup_aextend _ _ (by simp) f]
    by_cases hf : f = ("logic")
    · subst hf
      simp [alookup, Option.orElse]
    · rw [base]
      simp [alookup, hf, Ne.symm hf, Option.orElse]

/-- C1 (amended).  For every component key in the union of the `api`, `docs`
and `logic` key sets (tokens keys never enter the union), except when the key
is the reserved `_tokens` and the token source is non-empty (the final token
assignment then replaces that record), the Merger's output at the key is a
record whose every top-level field is: the `logic` source record under the
field `logic` exactly when that source has the key, and otherwise the `api`
record's field when defined, else the `docs` record's field. -/
theorem mergeDatasets_record_fields (api docs logic tokens : JObj)
    (hapi : wfSource api) (hdocs : wfSource docs) (hlogic : wfSource logic)
    (k : String)
    (hk : k ∈ dedupFirst (api.map Prod.fst ++ docs.map Prod.fst ++ logic.map Prod.fst))
    (hres : ¬(k = ("_tokens") ∧ tokens ≠ [])) :
    ∃ rec, alookup (mergeDatasets api docs logic tokens) k = some (Json.obj rec) ∧
      ∀ f, alookup rec f =
        if f = ("logic") ∧ (alookup logic k).isSome then alookup logic k
        else ((alookup api k).bind (fun j => jget j f)).orElse
             (fun _ => (alookup docs k).bind (fun j => jget j f)) := by
  refine ⟨mergeRecord docs api logic k, ?_, fun f => alookup_mergeRecord hdocs hapi hlogic k f⟩
  have hnd := nodup_dedupFirst
    (api.map Prod.fst ++ docs.map Prod.fst ++ logic.map Prod.fst)
  have hbuild := alookup_foldl_build
    (g := fun key => Json.obj (mergeRecord docs api logic key)) hnd hk ([] : JObj)
  simp only [mergeDatasets]
  by_cases ht : 0 < (tokens.map Prod.fst).length
  · have htk : tokens ≠ [] := by
      intro h; subst h; simp at ht
    have hkne : k ≠ ("_tokens") := fun h => hres ⟨h, htk⟩
    rw [if_pos ht, alookup_ainsert, if_neg hkne]
    exact hbuild
  · rw [if_neg ht]
    exact hbuild

/-- C1 counterexample input: an `api` source that itself has a `_tokens` key. -/
def apiClash : JObj := [(("_tokens"), Json.obj [(("title"), Json.str ("T"))])]

/-- C1 counterexample input: a non-empty token source. -/
def tokensClash : JObj := [(("--p-x"), Json.str ("v"))]

/-- C1 counterexample: with `apiClash` and `tokensClash`, the key `_tokens`
lies in the union of the first three sources, yet the Merger's output at
`_tokens` is the token map, not the docs-then-api shallow merge: the claimed
record would have `title = some (Json.str "T")`, the actual one has no
`title` field.  This refutes C1 as stated. -/
theorem mergeDatasets_reserved_key_clobbered :
    ("_tokens") ∈ dedupFirst (apiClash.map Prod.fst ++ ([] : JObj).map Prod.fst
      ++ ([] : JObj).map Prod.fst) ∧
    alookup (mergeDatasets apiClash [] [] tokensClash) ("_tokens")
      = some (Json.obj tokensClash) ∧
    alookup tokensClash ("title") = none ∧
    (alookup apiClash ("_tokens")).bind (fun j => jget j ("title"))
      = some (Json.str ("T")) := by
  refine ⟨?_, rfl, rfl, rfl⟩
  rw [mem_dedupFirst]
  simp [apiClash]

/-- C1 witness inputs. -/
def apiW : JObj := [(("btn"), Json.obj [(("props"), Json.obj []), (("x"), Json.str ("a"))])]

/-- C1 witness inputs. -/
def docsW : JObj := [(("btn"), Json.obj [(("title"), Json.str ("T")), (("x"), Json.str ("d"))])]

/-- C1 witness inputs. -/
def logicW : JObj := [(("btn"), Json.obj [(("composables"), Json.arr [])])]

/-- C1 witness: the amended theorem applied at concrete inputs; the merged
`btn` record takes `x` from `api` (overriding `docs`), `title` from `docs`,
and the `logic` record under `logic`. -/
theorem mergeDatasets_record_fields_witness :
    ∃ rec, alookup (mergeDatasets apiW docsW logicW []) ("btn") = some (Json.obj rec) ∧
      alookup rec ("x") = some (Json.str ("a")) ∧
      alookup rec ("title") = some (Json.str ("T")) ∧
      alookup rec ("logic") = some (Json.obj [(("composables"), Json.arr [])]) := by
  have hwa : wfSource apiW := by
    intro p hp
    simp only [apiW, List.mem_singleton] at hp
    subst hp
    exact ⟨_, rfl, by simp⟩
  have hwd : wfSource docsW := by
    intro p hp
    simp only [docsW, List.mem_singleton] at hp
    subst hp
    exact ⟨_, rfl, by simp⟩
  have hwl : wfSource logicW := by
    intro p hp
    simp only [logicW, List.mem_singleton] at hp
    subst hp
    exact ⟨_, rfl, by simp⟩
  obtain ⟨rec, hrec, hf⟩ := mergeDatasets_record_fields apiW docsW logicW []
    hwa hwd hwl ("btn") (by rw [mem_dedupFirst]; simp [apiW, docsW, logicW])
    (by rintro ⟨_, h⟩; exact h rfl)
  refine ⟨rec, hrec, ?_, ?_, ?_⟩
  · rw [hf ("x")]; rfl
  · rw [hf ("title")]; rfl
  · rw [hf ("logic")]; rfl

/-- C9.  The Merger is a pure, deterministic function of its four inputs:
running it twice on the same sources gives identical output, and the output
key order is fully determined — the first-seen order of the `api`, `docs`,
`logic` keys, followed by `_tokens` when the token source is non-empty and
`_tokens` was not already a source key. -/
theorem mergeDatasets_pure_deterministic (api docs logic tokens : JObj) :
    mergeDatasets api docs logic tokens = mergeDatasets api docs logic tokens ∧
    (mergeDatasets api docs logic tokens).map Prod.fst =
      (if 0 < (tokens.map Prod.fst).length then
        (if ("_tokens") ∈ dedupFirst (api.map Prod.fst ++ docs.map Prod.fst
            ++ logic.map Prod.fst) then
          dedupFirst (api.map Prod.fst ++ docs.map Prod.fst ++ logic.map Prod.fst)
         else
          dedupFirst (api.map Prod.fst ++ docs.map Prod.fst ++ logic.map Prod.fst)
            ++ [("_tokens")])
       else
        dedupFirst (api.map Prod.fst ++ docs.map Prod.fst ++ logic.map Prod.fst)) := by
  refine ⟨rfl, ?_⟩
  have hnd := nodup_dedupFirst
    (api.map Prod.fst ++ docs.map Prod.fst ++ logic.map Prod.fst)
  have hkeys : (List.foldl
      (fun acc key => ainsert acc key (Json.obj (mergeRecord docs api logic key))) []
      (dedupFirst (api.map Prod.fst ++ docs.map Prod.fst ++ logic.map Prod.fst))).map
        Prod.fst =
      dedupFirst (api.map Prod.fst ++ docs.map Prod.fst ++ logic.map Prod.fst) := by
    have h := keys_foldl_build
      (g := fun key => Json.obj (mergeRecord docs api logic key)) hnd ([] : JObj)
      (by intro k hk; simp)
    simpa using h
  simp only [mergeDatasets]
  by_cases ht : 0 < (tokens.map Prod.fst).length
  · rw [if_pos ht, if_pos ht, keys_ainsert, hkeys]
  · rw [if_neg ht, if_neg ht]
    exact hkeys

/-! ## Regex scanners (`scripts/extract_logic.ts` and the token extractor)

The extractor regexes are fixed, so each is embedded as a direct scanner over
the character list with JavaScript global-match semantics: at each position
the engine attempts a match (greedy or lazy exactly as the pattern dictates);
on success the full match is recorded and scanning resumes after it, on
failure scanning advances one character. -/

/-- A JS regex quote class `['"`]`: single quote (39), double quote (34),
backtick (96). -/
def isQuote (c : Char) : Bool :=
  c.toNat == 39 || c.toNat == 34 || c.toNat == 96

/-- Characters matched by the regex dot `.` (everything except the
JavaScript line terminators). -/
def dotOk (c : Char) : Bool :=
  !(c.toNat == 10 || c.toNat == 13 || c.toNat == 8232 || c.toNat == 8233)

/-- The regex word class `\w`. -/
def wordChar (c : Char) : Bool :=
  (97 ≤ c.toNat && c.toNat ≤ 122) || (65 ≤ c.toNat && c.toNat ≤ 90) ||
  (48 ≤ c.toNat && c.toNat ≤ 57) || c.toNat == 95

/-- The regex class `[A-Z]`. -/
def upperAZ (c : Char) : Bool := 65 ≤ c.toNat && c.toNat ≤ 90

/-- The regex whitespace class `\s` (the common JavaScript members). -/
def jsSpace (c : Char) : Bool :=
  c.toNat == 32 || c.toNat == 9 || c.toNat == 10 || c.toNat == 11 ||
  c.toNat == 12 || c.toNat == 13 || c.toNat == 160

/-- Generic global scanner: `f` attempts a match at the current position and
returns the match length; the fuel (instantiated with the input length, an
upper bound on the number of steps since every step discards at least one
character) makes the recursion structural. -/
def scanG (f : List Char → Option Nat) : Nat → List Char → List (List Char)
  | 0, _ => []
  | _ + 1, [] => []
  | fuel + 1, c :: rest =>
    match f (c :: rest) with
    | some n => (c :: rest).take n :: scanG f fuel (rest.drop (n - 1))
    | none => scanG f fuel rest

/-- Global scanner for patterns with a leading word boundary: the previous
character is carried so `\b` can be tested at each position. -/
def scanB (f : Option Char → List Char → Option Nat) :
    Nat → Option Char → List Char → List (List Char)
  | 0, _, _ => []
  | _ + 1, _, [] => []
  | fuel + 1, prev, c :: rest =>
    match f prev (c :: rest) with
    | some n => (c :: rest).take n :: scanB f fuel ((c :: rest).take n).getLast? (rest.drop (n - 1))
    | none => scanB f fuel (some c) rest

/-- First-match search (a JS `String.match` without the `g` flag): try the
capture function at every position, return the first success. -/
def firstCap (f : List Char → Option (List Char)) : List Char → Option (List Char)
  | [] => none
  | c :: rest =>
    match f (c :: rest) with
    | some b => some b
    | none => firstCap f rest

/-! ### The `use[A-Z]\w+` composable pattern -/

/-- Match attempt for `use[A-Z]\w+` at the head of the input (greedy `\w+`,
no word boundary in the pattern). -/
def useAt (str : List Char) : Option Nat :=
  match str with
  | 'u' :: 's' :: 'e' :: c :: rest =>
    if upperAZ c then
      let w := rest.takeWhile wordChar
      if w.isEmpty then none else some (4 + w.length)
    else none
  | _ => none

/-! ### The `\b(ref|reactive|computed|watch|onMounted|onUnmounted)\b` pattern -/

/-- The alternatives of the reactivity-primitive whitelist, in alternation
order. -/
def vueAlts : List (List Char) :=
  [("ref").data, ("reactive").data, ("computed").data, ("watch").data,
   ("onMounted").data, ("onUnmounted").data]

/-- Word boundary after `n` matched word characters: end of input or a
non-word character. -/
def boundaryAfter (str : List Char) (n : Nat) : Bool :=
  match str.drop n with
  | [] => true
  | d :: _ => !(wordChar d)

/-- True when the previous character admits a `\b` before a word character. -/
def prevNonWord : Option Char → Bool
  | none => true
  | some p => !(wordChar p)

/-- Match attempt for the reactivity-primitive alternation at the head of the
input, alternatives tried left to right, each with its trailing `\b`. -/
def vueAt (prev : Option Char) (str : List Char) : Option Nat :=
  if prevNonWord prev then
    vueAlts.findSome? (fun a =>
      if a.isPrefixOf str && boundaryAfter str a.length then some a.length else none)
  else none

/-! ### The `\b(\w+)\s*\([^)]*\)\s*{[^}]*}` method pattern -/

/-- Match attempt for the method pattern at the head of the input.  Each
greedy piece is forced (no productive backtracking exists for this pattern):
maximal `\w+`, maximal `\s*`, literal parenthesis, maximal `[^)]*` up to the
first closing parenthesis, maximal `\s*`, a brace, maximal `[^}]*` up to the
first closing brace. -/
def methodAt (prev : Option Char) (str : List Char) : Option Nat :=
  if prevNonWord prev then
    let w := str.takeWhile wordChar
    if w.isEmpty then none
    else
      let r1 := str.drop w.length
      let ws1 := r1.takeWhile jsSpace
      let r2 := r1.drop ws1.length
      match r2 with
      | '(' :: r3 =>
        let body1 := r3.takeWhile (fun c => c != ')')
        (match r3.drop body1.length with
         | ')' :: r4 =>
           let ws2 := r4.takeWhile jsSpace
           let r5 := r4.drop ws2.length
           (match r5 with
            | c :: r6 =>
              if c.toNat == 123 then
                let body2 := r6.takeWhile (fun ch => ch.toNat != 125)
                (match r6.drop body2.length with
                 | d :: _ =>
                   if d.toNat == 125 then
                     some (w.length + ws1.length + 1 + body1.length + 1
                       + ws2.length + 1 + body2.length + 1)
                   else none
                 | [] => none)
              else none
            | [] => none)
         | _ => none)
      | _ => none
  else none

/-- The embedding of `m.split("(")[0].trim()` applied to a method match. -/
def methodName (m : List Char) : String :=
  String.mk ((((m.takeWhile (fun c => c != '(')).dropWhile jsSpace).reverse.dropWhile
    jsSpace).reverse)

/-! ### The `emit\(['"`](.+?)['"`]\)` pattern -/

/-- Lazy search for the body of `['"`](.+?)['"`]\)` after the opening quote:
the shortest non-empty dot-matched run followed by a quote and a closing
parenthesis. -/
def emitBodyAux : List Char → Option (List Char)
  | c :: d :: e :: rest =>
    if dotOk c then
      if isQuote d && e == ')' then some [c]
      else
        match emitBodyAux (d :: e :: rest) with
        | some b => some (c :: b)
        | none => none
    else none
  | _ => none

/-- Match attempt for `emit\(['"`](.+?)['"`]\)` at the head of the input. -/
def emitAt (str : List Char) : Option Nat :=
  match str with
  | 'e' :: 'm' :: 'i' :: 't' :: '(' :: q :: rest =>
    if isQuote q then (emitBodyAux rest).map (fun b => b.length + 8) else none
  | _ => none

/-- Lazy search for `(.+?)` followed by a quote (the re-extraction regex
`['"`](.+?)['"`]` applied to a recorded match). -/
def lazyToQuote : List Char → Option (List Char)
  | c :: d :: rest =>
    if dotOk c then
      if isQuote d then some [c]
      else
        match lazyToQuote (d :: rest) with
        | some b => some (c :: b)
        | none => none
    else none
  | _ => none

/-- Capture attempt for `['"`](.+?)['"`]` at the head of the input. -/
def innerQAt (str : List Char) : Option (List Char) :=
  match str with
  | q :: rest => if isQuote q then lazyToQuote rest else none
  | [] => none

/-- The embedding of `e.match(/['"`](.+?)['"`]/)?.[1]` applied to one
recorded `emit(...)` match. -/
def emitInnerCapS (m : List Char) : Option String :=
  (firstCap innerQAt m).map String.mk

/-! ### The logic extractor (`extractLogicFromFile`) -/

/-- All matches of `/use[A-Z]\w+/g` in the file text. -/
def useMatchesOf (content : List Char) : List (List Char) :=
  scanG useAt content.length content

/-- All matches of the reactivity-primitive pattern in the file text. -/
def vueMatchesOf (content : List Char) : List (List Char) :=
  scanB vueAt content.length none content

/-- All matches of the method pattern in the file text. -/
def methodMatchesOf (content : List Char) : List (List Char) :=
  scanB methodAt content.length none content

/-- All matches of the `emit(...)` pattern in the file text. -/
def emitMatchesOf (content : List Char) : List (List Char) :=
  scanG emitAt content.length content

/-- The composable match strings, in text order. -/
def composablesRaw (content : List Char) : List String :=
  (useMatchesOf content).map String.mk

/-- The reactivity-primitive match strings, in text order. -/
def vueImportsRaw (content : List Char) : List String :=
  (vueMatchesOf content).map String.mk

/-- The method names (match prefix before the parenthesis, trimmed), with the
two reserved names filtered out, in text order. -/
def methodsRawNames (content : List Char) : List String :=
  ((methodMatchesOf content).map methodName).filter
    (fun m => !(([("setup"), ("render")] : List String).contains m))

/-- The per-match extracted emit literals, in match order. -/
def emitsRaw (content : List Char) : List (Option String) :=
  (emitMatchesOf content).map emitInnerCapS

/-- The output record of the Logic Signal Extractor for one file: a category
field is present exactly when the corresponding `match` call returned a
non-null array. -/
structure LogicOut where
  composables : Option (List String)
  vueImports : Option (List String)
  methods : Option (List String)
  emits : Option (List (Option String))

/-- The embedding of `extractLogicFromFile`: composables, vueImports and
methods are deduplicated with `Array.from(new Set(...))`; emits maps each
match through the re-extraction regex with no deduplication. -/
def extractLogicFromFile (content : List Char) : LogicOut :=
  ⟨if (useMatchesOf content).isEmpty then none
    else some (dedupFirst (composablesRaw content)),
   if (vueMatchesOf content).isEmpty then none
    else some (dedupFirst (vueImportsRaw content)),
   if (methodMatchesOf content).isEmpty then none
    else some (dedupFirst (methodsRawNames content)),
   if (emitMatchesOf content).isEmpty then none
    else some (emitsRaw content)⟩

/-- A single-quote character as a one-character string. -/
def sqStr : String := String.singleton (Char.ofNat 39)

/-- C4 (amended).  For every input file text, the composables, vueImports and
methods categories contain no duplicate entries and list their entries in
first-appearance order of the corresponding raw match list (which is in text
order); the emits category is not deduplicated. -/
theorem extract_logic_categories_dedup (content : List Char) :
    (∀ l, (extractLogicFromFile content).composables = some l →
      l.Nodup ∧ (∀ x, x ∈ l ↔ x ∈ composablesRaw content) ∧
      l.Pairwise (fun a b => (composablesRaw content).indexOf a
        < (composablesRaw content).indexOf b)) ∧
    (∀ l, (extractLogicFromFile content).vueImports = some l →
      l.Nodup ∧ (∀ x, x ∈ l ↔ x ∈ vueImportsRaw content) ∧
      l.Pairwise (fun a b => (vueImportsRaw content).indexOf a
        < (vueImportsRaw content).indexOf b)) ∧
    (∀ l, (extractLogicFromFile content).methods = some l →
      l.Nodup ∧ (∀ x, x ∈ l ↔ x ∈ methodsRawNames content) ∧
      l.Pairwise (fun a b => (methodsRawNames content).indexOf a
        < (methodsRawNames content).indexOf b)) := by
  refine ⟨fun l hl => ?_, fun l hl => ?_, fun l hl => ?_⟩ <;>
    simp only [extractLogicFromFile] at hl
  all_goals
    split at hl
    · exact absurd hl (by simp)
    · obtain rfl := Option.some_inj.mp hl
      exact ⟨nodup_dedupFirst _, fun x => mem_dedupFirst,
        pairwise_indexOf_dedupFirst _⟩

/-- C4 witness input text. -/
def useContentW : List Char := (("const x = useFoo() + useFoo() and useBar")).data

/-- C4 witness: the amended theorem applied to a text whose raw composable
match list is `[useFoo, useFoo, useBar]`; the extracted category is the
deduplicated `[useFoo, useBar]`, without duplicates and in first-seen
order. -/
theorem extract_logic_categories_dedup_witness :
    ([("useFoo"), ("useBar")] : List String).Nodup ∧
    ([("useFoo"), ("useBar")] : List String).Pairwise
      (fun a b => (composablesRaw useContentW).indexOf a
        < (composablesRaw useContentW).indexOf b) := by
  have h := (extract_logic_categories_dedup useContentW).1
    ([("useFoo"), ("useBar")]) (by decide)
  exact ⟨h.1, h.2.2⟩

/-- C4 counterexample input: the same `emit('a')` call twice. -/
def emitDupContent : List Char :=
  (("emit(") ++ sqStr ++ ("a") ++ sqStr ++ (")") ++ ("emit(") ++ sqStr
    ++ ("a") ++ sqStr ++ (")")).data

/-- C4 counterexample: the emits category of the Logic Signal Extractor is
not deduplicated — the text `emit('a')emit('a')` yields the emits list
`[a, a]`, which has duplicate entries, refuting C4 as stated. -/
theorem extract_logic_emits_duplicates :
    (extractLogicFromFile emitDupContent).emits = some [some ("a"), some ("a")] ∧
    ¬ ([some ("a"), some ("a")] : List (Option String)).Nodup := by
  exact ⟨by decide, by decide⟩

/-- The literal characters of the mandatory prefix `emit(` of the emit
pattern. -/
def emitOpenChars : List Char := ['e', 'm', 'i', 't', '(']

theorem emitAt_shape {str : List Char} {n : Nat} (h : emitAt str = some n) :
    ∃ q rest, str = 'e' :: 'm' :: 'i' :: 't' :: '(' :: q :: rest := by
  unfold emitAt at h
  split at h
  · exact ⟨_, _, rfl⟩
  · exact Option.noConfusion h

theorem emitAt_none_of_not_prefix {str : List Char}
    (h : emitOpenChars.isPrefixOf str = false) : emitAt str = none := by
  cases he : emitAt str with
  | none => rfl
  | some n =>
    obtain ⟨q, rest, rfl⟩ := emitAt_shape he
    simp [emitOpenChars, List.isPrefixOf] at h

theorem emitBodyAux_clean (s : List Char) (q2 : Char) (tail : List Char)
    (hs : s ≠ []) (hclean : ∀ c ∈ s, dotOk c = true ∧ isQuote c = false)
    (hq : isQuote q2 = true) :
    emitBodyAux (s ++ q2 :: ')' :: tail) = some s := by
  induction s with
  | nil => exact absurd rfl hs
  | cons c s2 ih =>
    have hc := hclean c (List.mem_cons_self c s2)
    cases s2 with
    | nil =>
      simp only [List.cons_append, List.nil_append, emitBodyAux, hc.1, hq]
      simp
    | cons c2 s3 =>
      have hc2 := hclean c2 (by simp)
      have hrec : emitBodyAux (c2 :: (s3 ++ q2 :: ')' :: tail)) = some (c2 :: s3) := by
        have h2 := ih (by simp) (fun x hx => hclean x (List.mem_cons_of_mem c hx))
        simpa using h2
      cases hX : (s3 ++ q2 :: ')' :: tail) with
      | nil => simp at hX
      | cons e rest2 =>
        rw [hX] at hrec
        show emitBodyAux (c :: (c2 :: (s3 ++ q2 :: ')' :: tail))) = some (c :: c2 :: s3)
        rw [hX]
        simp only [emitBodyAux, hc.1, hc2.2, Bool.false_and, if_true, if_false, hrec]
        simp

theorem lazyToQuote_clean (s : List Char) (q2 : Char) (tail : List Char)
    (hs : s ≠ []) (hclean : ∀ c ∈ s, dotOk c = true ∧ isQuote c = false)
    (hq : isQuote q2 = true) :
    lazyToQuote (s ++ q2 :: tail) = some s := by
  induction s with
  | nil => exact absurd rfl hs
  | cons c s2 ih =>
    have hc := hclean c (List.mem_cons_self c s2)
    cases s2 with
    | nil =>
      simp only [List.cons_append, List.nil_append, lazyToQuote, hc.1, hq]
      simp
    | cons c2 s3 =>
      have hc2 := hclean c2 (by simp)
      have hrec : lazyToQuote ((c2 :: s3) ++ q2 :: tail) = some (c2 :: s3) :=
        ih (by simp) (fun x hx => hclean x (List.mem_cons_of_mem c hx))
      rw [List.cons_append] at hrec ⊢
      rw [List.cons_append]
      simp only [lazyToQuote, hc.1, hc2.2, if_false, hrec]
      simp

theorem firstCap_cons_none {f : List Char → Option (List Char)} {c : Char}
    {rest : List Char} (h : f (c :: rest) = none) :
    firstCap f (c :: rest) = firstCap f rest := by
  simp [firstCap, h]

theorem innerQAt_emitCall (q1 q2 : Char) (s : List Char)
    (hq1 : isQuote q1 = true) (hq2 : isQuote q2 = true) (hs : s ≠ [])
    (hclean : ∀ c ∈ s, dotOk c = true ∧ isQuote c = false) :
    firstCap innerQAt (emitOpenChars ++ q1 :: (s ++ q2 :: ')' :: [])) = some s := by
  have hlazy : lazyToQuote (s ++ q2 :: (')' :: [])) = some s :=
    lazyToQuote_clean s q2 (')' :: []) hs hclean hq2
  have hstep : ∀ (c : Char) (X : List Char), isQuote c = false →
      firstCap innerQAt (c :: X) = firstCap innerQAt X := by
    intro c X hcq
    exact firstCap_cons_none (by simp [innerQAt, hcq])
  simp only [emitOpenChars, List.cons_append, List.nil_append]
  rw [hstep 'e' _ rfl, hstep 'm' _ rfl, hstep 'i' _ rfl, hstep 't' _ rfl,
    hstep '(' _ rfl]
  simp [firstCap, innerQAt, hq1, hlazy]

theorem emitMatchesOf_head {c : Char} {rest : List Char} {n : Nat}
    (h : emitAt (c :: rest) = some n) :
    emitMatchesOf (c :: rest)
      = (c :: rest).take n :: scanG emitAt rest.length (rest.drop (n - 1)) := by
  rw [emitMatchesOf, List.length_cons]
  simp [scanG, h]

theorem emitMatchesOf_skip {c : Char} {rest : List Char}
    (h : emitAt (c :: rest) = none) :
    emitMatchesOf (c :: rest) = emitMatchesOf rest := by
  rw [emitMatchesOf, List.length_cons]
  simp only [scanG, h]
  rfl

/-- The first-occurrence membership lemma behind C5: when the first `emit(`
in the text opens a quote-free, line-break-free, non-empty literal whose
closing quote is immediately followed by a closing parenthesis, the literal
is extracted into the emit list. -/
theorem emit_first_occurrence_in_matches (A s : List Char) (q1 q2 : Char)
    (B : List Char) (hq1 : isQuote q1 = true) (hq2 : isQuote q2 = true)
    (hs : s ≠ []) (hclean : ∀ c ∈ s, dotOk c = true ∧ isQuote c = false)
    (hfirst : ∀ j, j < A.length → emitOpenChars.isPrefixOf
      ((A ++ emitOpenChars ++ q1 :: (s ++ q2 :: ')' :: B)).drop j) = false) :
    some (String.mk s)
      ∈ emitsRaw (A ++ emitOpenChars ++ q1 :: (s ++ q2 :: ')' :: B)) := by
  induction A with
  | nil =>
    have hLdef : ([] : List Char) ++ emitOpenChars ++ q1 :: (s ++ q2 :: ')' :: B)
        = 'e' :: ('m' :: 'i' :: 't' :: '(' :: q1 :: (s ++ q2 :: ')' :: B)) := rfl
    have hbody : emitBodyAux (s ++ q2 :: ')' :: B) = some s :=
      emitBodyAux_clean s q2 B hs hclean hq2
    have hmatch : emitAt ('e' :: ('m' :: 'i' :: 't' :: '(' :: q1
        :: (s ++ q2 :: ')' :: B))) = some (s.length + 8) := by
      simp only [emitAt, hq1, if_true, hbody, Option.map_some']
    have htake : ('e' :: ('m' :: 'i' :: 't' :: '(' :: q1
        :: (s ++ q2 :: ')' :: B))).take (s.length + 8)
        = emitOpenChars ++ q1 :: (s ++ q2 :: ')' :: []) := by
      have hsplit : 'e' :: ('m' :: 'i' :: 't' :: '(' :: q1
          :: (s ++ q2 :: ')' :: B))
          = (emitOpenChars ++ q1 :: (s ++ q2 :: ')' :: [])) ++ B := by
        simp [emitOpenChars]
      have hlen2 : (emitOpenChars ++ q1 :: (s ++ q2 :: ')' :: [])).length
          = s.length + 8 := by
        simp [emitOpenChars]
      rw [hsplit, ← hlen2, List.take_left]
    have hcap : emitInnerCapS (emitOpenChars ++ q1 :: (s ++ q2 :: ')' :: []))
        = some (String.mk s) := by
      rw [emitInnerCapS, innerQAt_emitCall q1 q2 s hq1 hq2 hs hclean]
      rfl
    rw [List.nil_append]
    show some (String.mk s)
      ∈ emitsRaw ('e' :: ('m' :: 'i' :: 't' :: '(' :: q1 :: (s ++ q2 :: ')' :: B)))
    rw [emitsRaw, emitMatchesOf_head hmatch, htake, List.map_cons, hcap]
    exact List.mem_cons_self _ _
  | cons a A2 ih =>
    have hcons : (a :: A2) ++ emitOpenChars ++ q1 :: (s ++ q2 :: ')' :: B)
        = a :: (A2 ++ emitOpenChars ++ q1 :: (s ++ q2 :: ')' :: B)) := rfl
    have hpref : emitOpenChars.isPrefixOf
        (a :: (A2 ++ emitOpenChars ++ q1 :: (s ++ q2 :: ')' :: B))) = false := by
      have h0 := hfirst 0 (by simp)
      rw [List.drop_zero] at h0
      rw [← hcons]
      exact h0
    have hnone : emitAt (a :: (A2 ++ emitOpenChars ++ q1
        :: (s ++ q2 :: ')' :: B))) = none :=
      emitAt_none_of_not_prefix hpref
    have hskip := emitMatchesOf_skip hnone
    rw [hcons, emitsRaw, hskip, ← emitsRaw]
    apply ih
    intro j hj
    have h1 := hfirst (j + 1) (by simp; omega)
    rw [hcons] at h1
    simpa using h1

/-- C5 (amended).  For every input file text: every match of the emit
pattern (a literal immediately closed by quote-then-parenthesis) contributes
its re-extracted literal to the emits list; in particular, when the first
occurrence of `emit(` in the text opens a non-empty quote-free,
line-break-free string literal whose closing quote is immediately followed
by the closing parenthesis, that literal's content appears in the emits
list.  Calls whose string literal is followed by further arguments are not
matched by the pattern. -/
theorem emit_literals_in_emits (content : List Char) :
    (∀ m ∈ emitMatchesOf content,
      emitInnerCapS m ∈ emitsRaw content ∧
      (extractLogicFromFile content).emits = some (emitsRaw content)) ∧
    (∀ (A s : List Char) (q1 q2 : Char) (B : List Char),
      content = A ++ emitOpenChars ++ q1 :: (s ++ q2 :: ')' :: B) →
      isQuote q1 = true → isQuote q2 = true → s ≠ [] →
      (∀ c ∈ s, dotOk c = true ∧ isQuote c = false) →
      (∀ j, j < A.length → emitOpenChars.isPrefixOf (content.drop j) = false) →
      some (String.mk s) ∈ emitsRaw content ∧
      (extractLogicFromFile content).emits = some (emitsRaw content)) := by
  have hfield : emitMatchesOf content ≠ [] →
      (extractLogicFromFile content).emits = some (emitsRaw content) := by
    intro hne
    have hemp : ¬((emitMatchesOf content).isEmpty = true) := by
      simpa [List.isEmpty_iff] using hne
    simp only [extractLogicFromFile, if_neg hemp]
  constructor
  · intro m hm
    refine ⟨List.mem_map.mpr ⟨m, hm, rfl⟩, hfield (List.ne_nil_of_mem hm)⟩
  · intro A s q1 q2 B hcontent hq1 hq2 hs hclean hfirst
    subst hcontent
    have hmem := emit_first_occurrence_in_matches A s q1 q2 B hq1 hq2 hs hclean hfirst
    have hne : emitMatchesOf (A ++ emitOpenChars ++ q1 :: (s ++ q2 :: ')' :: B)) ≠ [] := by
      intro hnil
      rw [emitsRaw, hnil] at hmem
      simp at hmem
    exact ⟨hmem, hfield hne⟩

/-- C5 witness input text, `emit('a')`. -/
def emitWContent : List Char :=
  (("emit(") ++ sqStr ++ ("a") ++ sqStr ++ (")")).data

/-- C5 witness: the amended theorem applied to the text `emit('a')`: the
literal `a` appears in the extracted emits list. -/
theorem emit_literals_in_emits_witness :
    some (("a") : String) ∈ emitsRaw emitWContent ∧
    (extractLogicFromFile emitWContent).emits = some (emitsRaw emitWContent) := by
  have h := (emit_literals_in_emits emitWContent).2 [] [('a')] (Char.ofNat 39)
    (Char.ofNat 39) [] (by decide) (by decide) (by decide) (by decide)
    (by intro c hc; simp at hc; subst hc; exact ⟨rfl, rfl⟩)
    (by intro j hj; simp at hj)
  have hstr : String.mk [('a')] = ("a") := rfl
  rw [hstr] at h
  exact h

/-- C5 counterexample input: `emit('change', value)` — the string literal is
followed by a further argument. -/
def emitArgsContent : List Char :=
  (("emit(") ++ sqStr ++ ("change") ++ sqStr ++ (", value)")).data

/-- C5 counterexample: for the text `emit('change', value)` — a call named
`emit` whose first argument is the string literal `change`, followed by a
further argument — the extractor records no emits at all (the pattern
requires the closing quote to be immediately followed by the closing
parenthesis), so `change` does not appear in the emits list, refuting C5 as
stated. -/
theorem emit_literal_with_args_unmatched :
    emitArgsContent = (("emit(") ++ sqStr ++ ("change") ++ sqStr ++ (", value)")).data ∧
    (extractLogicFromFile emitArgsContent).emits = none := by
  exact ⟨rfl, by decide⟩

/-! ## Token extractor (`scripts/extract_tokens.ts`) -/

/-- Match attempt for `dt\(['"`]([^'"`]+)['"`]\)` at the head of the input:
the greedy body is the maximal run of non-quote characters after the opening
quote, which must be non-empty and followed by a quote and a closing
parenthesis. -/
def dtAt (str : List Char) : Option Nat :=
  match str with
  | 'd' :: 't' :: '(' :: q :: rest =>
    if isQuote q then
      let body := rest.takeWhile (fun c => !(isQuote c))
      if body.isEmpty then none
      else
        match rest.drop body.length with
        | q2 :: cp :: _ =>
          if isQuote q2 && cp == ')' then some (body.length + 6) else none
        | _ => none
    else none
  | _ => none

/-- Capture attempt for the same pattern: the body between the quotes. -/
def dtCapAt (str : List Char) : Option (List Char) :=
  match str with
  | 'd' :: 't' :: '(' :: q :: rest =>
    if isQuote q then
      let body := rest.takeWhile (fun c => !(isQuote c))
      if body.isEmpty then none
      else
        match rest.drop body.length with
        | q2 :: cp :: _ =>
          if isQuote q2 && cp == ')' then some body else none
        | _ => none
    else none
  | _ => none

/-- All matches of the `dt(...)` pattern in a file text. -/
def dtMatchesOf (content : List Char) : List (List Char) :=
  scanG dtAt content.length content

/-- The embedding of `match.match(/dt\(['"`]([^'"`]+)['"`]\)/)` applied to a
recorded match: the first position where the pattern captures. -/
def dtFirstCap (m : List Char) : Option (List Char) := firstCap dtCapAt m

/-- The captured token paths of a file, in match order (matches whose
re-extraction fails contribute nothing). -/
def dtCaps (content : List Char) : List (List Char) :=
  (dtMatchesOf content).filterMap dtFirstCap

/-- The token key generated from a captured path: the embedding of
`` `--p-${tokenPath.replace(/\./g, '-')}` ``. -/
def tokKeyOf (body : List Char) : String :=
  ("--p-") ++ String.mk (body.map (fun c => if c == '.' then ('-') else c))

/-- The placeholder value generated from a captured path: the embedding of
`` `dt('${tokenPath}')` ``. -/
def tokValOf (body : List Char) : String :=
  ("dt(") ++ sqStr ++ String.mk body ++ sqStr ++ (")")

/-- The embedding of `extractTokensFromFile`: for each match, re-extract the
path and store the generated key with the placeholder value (later matches
overwrite earlier ones on key collision). -/
def extractTokensFromFile (content : List Char) : List (String × String) :=
  (dtMatchesOf content).foldl
    (fun acc m =>
      match dtFirstCap m with
      | some body => ainsert acc (tokKeyOf body) (tokValOf body)
      | none => acc) []

/-- The embedding of the token extractor's main file loop: starting from an
empty token object, `Object.assign` each file's extracted map in
file-visit order. -/
def mainTokens (files : List (List Char)) : List (String × String) :=
  files.foldl (fun acc content => aextend acc (extractTokensFromFile content)) []

theorem option_or_eq_orElse {α : Type} (x y : Option α) :
    x.or y = x.orElse (fun _ => y) := by
  cases x <;> rfl

theorem findSome?_append_or {α β : Type} (l1 l2 : List α) (f : α → Option β) :
    (l1 ++ l2).findSome? f = (l1.findSome? f).or (l2.findSome? f) := by
  induction l1 with
  | nil => simp
  | cons a l ih =>
    rw [List.cons_append, List.findSome?_cons, List.findSome?_cons]
    cases f a <;> simp [ih, Option.or]

theorem alookup_foldl_ainsert {α β : Type} (key : β → String) (val : β → α)
    (l : List β) (acc : List (String × α)) (k : String) :
    alookup (l.foldl (fun a b => ainsert a (key b) (val b)) acc) k =
      ((l.reverse.find? (fun b => key b == k)).map val).orElse
        (fun _ => alookup acc k) := by
  induction l generalizing acc with
  | nil => simp [Option.orElse]
  | cons b bs ih =>
    rw [List.foldl_cons, ih, List.reverse_cons, List.find?_append,
      option_or_eq_orElse, alookup_ainsert]
    by_cases hb : key b == k
    · have hbk : k = key b := by
        have := eq_of_beq hb
        exact this.symm
      have hone : List.find? (fun b2 => key b2 == k) [b] = some b := by
        simp [List.find?, hb]
      rw [hone]
      cases hfind : List.find? (fun b2 => key b2 == k) bs.reverse <;>
        simp [Option.orElse, hbk]
    · have hkb : ¬(k = key b) := by
        intro h
        subst h
        simp at hb
      have hone : List.find? (fun b2 => key b2 == k) [b] = none := by
        simp [List.find?, hb]
      rw [hone]
      cases hfind : List.find? (fun b2 => key b2 == k) bs.reverse <;>
        simp [Option.orElse, hkb]

theorem extractTokensFromFile_eq_fold (content : List Char) :
    extractTokensFromFile content =
      (dtCaps content).foldl
        (fun acc body => ainsert acc (tokKeyOf body) (tokValOf body)) [] := by
  rw [extractTokensFromFile, dtCaps]
  generalize dtMatchesOf content = ms
  suffices aux : ∀ (ms : List (List Char)) (acc : List (String × String)),
      ms.foldl (fun acc m =>
        match dtFirstCap m with
        | some body => ainsert acc (tokKeyOf body) (tokValOf body)
        | none => acc) acc
      = (ms.filterMap dtFirstCap).foldl
          (fun acc body => ainsert acc (tokKeyOf body) (tokValOf body)) acc by
    exact aux ms []
  intro ms2
  induction ms2 with
  | nil => intro acc; rfl
  | cons m rest ih =>
    intro acc
    rw [List.foldl_cons]
    cases h : dtFirstCap m with
    | some body =>
      rw [List.filterMap_cons_some h, List.foldl_cons]
      simp only [h]
      exact ih _
    | none =>
      rw [List.filterMap_cons_none h]
      simp only [h]
      exact ih _

theorem nodup_keys_foldl_tokens (ms : List (List Char))
    (acc : List (String × String)) (h : (acc.map Prod.fst).Nodup) :
    (((ms.foldl (fun acc m =>
        match dtFirstCap m with
        | some body => ainsert acc (tokKeyOf body) (tokValOf body)
        | none => acc) acc)).map Prod.fst).Nodup := by
  induction ms generalizing acc with
  | nil => exact h
  | cons m rest ih =>
    rw [List.foldl_cons]
    cases hm : dtFirstCap m with
    | some body =>
      simp only [hm]
      refine ih _ ?_
      rw [keys_ainsert]
      by_cases hmem : tokKeyOf body ∈ acc.map Prod.fst
      · rw [if_pos hmem]; exact h
      · rw [if_neg hmem]
        simp [List.nodup_append, h, hmem]
    | none =>
      simp only [hm]
      exact ih _ h

theorem nodup_keys_extractTokensFromFile (content : List Char) :
    ((extractTokensFromFile content).map Prod.fst).Nodup := by
  rw [extractTokensFromFile]
  exact nodup_keys_foldl_tokens (dtMatchesOf content) [] (by simp)

/-- C7.  First conjunct: within one file, the token map's entry at a key is
the placeholder value `dt('<path>')` of the last `dt(...)` capture whose
generated key `--p-<path with dots hyphenated>` is that key (and the key is
absent when no capture generates it).  Second conjunct: across the walked
files, the main loop's token map resolves every key to the extracted value
from the latest-visited file defining it (last write wins in full file-visit
order). -/
theorem token_extraction_last_write (content : List Char)
    (files : List (List Char)) (k : String) :
    alookup (extractTokensFromFile content) k
      = ((dtCaps content).reverse.find? (fun body => tokKeyOf body == k)).map
          tokValOf ∧
    alookup (mainTokens files) k
      = files.reverse.findSome? (fun c => alookup (extractTokensFromFile c) k) := by
  constructor
  · rw [extractTokensFromFile_eq_fold content,
      alookup_foldl_ainsert tokKeyOf tokValOf (dtCaps content) [] k]
    cases ((dtCaps content).reverse.find? (fun body => tokKeyOf body == k)).map
      tokValOf <;> simp [Option.orElse, alookup]
  · suffices aux : ∀ (fs : List (List Char)) (acc : List (String × String)),
        alookup (fs.foldl (fun acc c => aextend acc (extractTokensFromFile c)) acc) k
        = (fs.reverse.findSome? (fun c => alookup (extractTokensFromFile c) k)).orElse
            (fun _ => alookup acc k) by
      have h := aux files []
      rw [mainTokens, h]
      cases files.reverse.findSome? (fun c => alookup (extractTokensFromFile c) k) <;>
        simp [Option.orElse, alookup]
    intro fs
    induction fs with
    | nil => intro acc; simp [Option.orElse]
    | cons c cs ih =>
      intro acc
      rw [List.foldl_cons, ih, List.reverse_cons, findSome?_append_or,
        option_or_eq_orElse]
      rw [alookup_aextend acc (extractTokensFromFile c)
        (nodup_keys_extractTokensFromFile c) k]
      have hone : List.findSome? (fun c2 => alookup (extractTokensFromFile c2) k) [c]
          = alookup (extractTokensFromFile c) k := by
        rw [List.findSome?_cons]
        cases alookup (extractTokensFromFile c) k <;> simp
      rw [hone]
      cases cs.reverse.findSome? (fun c2 => alookup (extractTokensFromFile c2) k) <;>
        simp [Option.orElse]

/-! ## Query API (`src/index.ts`) -/

/-- The `.toLowerCase().includes(term)` test on a possibly-absent field
value: `undefined` and `null` short-circuit to a falsy result through the
optional chain, strings are lowered and tested, and any other value raises a
`TypeError` (calling the `undefined` property `toLowerCase`). -/
def lowerIncludesJ (v : Option Json) (term : String) : Except Unit Bool :=
  match v with
  | none => .ok false
  | some .null => .ok false
  | some (.str s) => .ok (strIncludes (lowerStr s) term)
  | some _ => .error ()

/-- The filter predicate of `/mcp/components` (and of the tool server's
`searchComponents`): name, then title, then description, with JS `||`
short-circuiting. -/
def filtKey (data : JObj) (term : String) (key : String) : Except Unit Bool :=
  if strIncludes (lowerStr key) term then .ok true
  else
    match lowerIncludesJ ((alookup data key).bind (fun c => jget c ("title"))) term with
    | .error e => .error e
    | .ok true => .ok true
    | .ok false =>
      lowerIncludesJ ((alookup data key).bind (fun c => jget c ("description"))) term

/-- `Array.prototype.filter` with a predicate that can throw: elements are
tested left to right and the first failure aborts. -/
def filterE (p : String → Except Unit Bool) : List String → Except Unit (List String)
  | [] => .ok []
  | k :: rest =>
    match p k with
    | .error e => .error e
    | .ok b =>
      match filterE p rest with
      | .error e => .error e
      | .ok tail => .ok (if b then k :: tail else tail)

/-- A component summary row of the `/mcp/components` response. -/
structure Summary where
  name : String
  title : Option Json
  description : Option Json
  hasProps : Bool
  hasExamples : Bool
  sections : List String

/-- The summary field names treated as standard (not sections). -/
def standardSections : List String :=
  [("title"), ("description"), ("props"), ("examples")]

/-- The optional chain `component?.examples?.length` (`undefined` when the
component or its `examples` field is nullish). -/
def examplesChain (comp : Option Json) : Option Json :=
  match comp.bind (fun c => jget c ("examples")) with
  | none => none
  | some .null => none
  | some v => jsDotLength v

/-- One summary row built from `data[key]`: the embedding of the map body of
the `/mcp/components` handler. -/
def mkSummary (data : JObj) (key : String) : Summary :=
  let comp := alookup data key
  let compOr : Json :=
    match comp with
    | some c => if c.truthy then c else Json.obj []
    | none => Json.obj []
  let sections := (jsKeys compOr).filter (fun k =>
    !(standardSections.contains k) &&
      (match comp.bind (fun c => jget c k) with
       | some v => typeofObject v && !(jsIsNull v)
       | none => false))
  ⟨key,
   comp.bind (fun c => jget c ("title")),
   comp.bind (fun c => jget c ("description")),
   optTruthy (comp.bind (fun c => jget c ("props"))),
   optTruthy (examplesChain comp),
   sections⟩

/-- The embedding of the `/mcp/components` compute function: the non-reserved
keys, filtered by `q` when it is a non-empty string, mapped to summaries. -/
def componentsCompute (data : JObj) (q : Option String) :
    Except Unit (List Summary) :=
  let keys0 := (data.map Prod.fst).filter (fun k => k != ("_tokens"))
  let keysE : Except Unit (List String) :=
    match q with
    | some s => if s = "" then .ok keys0 else filterE (filtKey data (lowerStr s)) keys0
    | none => .ok keys0
  match keysE with
  | .error e => .error e
  | .ok keys => .ok (keys.map (mkSummary data))

/-- The component-or-404 lookup `data[name.toLowerCase()] || data[name]`. -/
def jsOrLookup (data : JObj) (name : String) : Option Json :=
  match alookup data (lowerStr name) with
  | some v => if v.truthy then some v else alookup data name
  | none => alookup data name

/-- The non-reserved key list used in 404 responses. -/
def availableComponents (data : JObj) : List String :=
  (data.map Prod.fst).filter (fun k => k != ("_tokens"))

/-- The object-valued section names of a component, used in section-404
responses. -/
def availableSections (c : Json) : List String :=
  (jsKeys c).filter (fun k =>
    match jget c k with
    | some v => typeofObject v && !(jsIsNull v)
    | none => false)

/-- The possible responses of `GET /mcp/component/:name`. -/
inductive CompResult where
  | ok (body : Json) : CompResult
  | notFoundComp (available : List String) : CompResult
  | notFoundSection (available : List String) : CompResult

/-- The embedding of the `GET /mcp/component/:name` handler: falsy lookup
result gives a 404 listing all non-reserved keys; a non-empty `section`
query selects one truthy section or gives a 404 listing the component's
object-valued sections. -/
def componentHandler (data : JObj) (name : String) (sect : Option String) :
    CompResult :=
  match jsOrLookup data name with
  | none => .notFoundComp (availableComponents data)
  | some c =>
    if c.truthy then
      match sect with
      | some s =>
        if s = "" then .ok c
        else
          match jget c (lowerStr s) with
          | some v => if v.truthy then .ok v else .notFoundSection (availableSections c)
          | none => .notFoundSection (availableSections c)
      | none => .ok c
    else .notFoundComp (availableComponents data)

/-- One `/mcp/search` result row. -/
structure SearchResult where
  rtype : String
  name : String
  title : Option Json
  description : Option Json
  value : Option Json
  matchedFields : List String

/-- The matched-field list for one component in `/mcp/search`: name, title,
description (each test can throw), then the matching prop names. -/
def entryMatches (term : String) (key : String) (comp : Json) :
    Except Unit (List String) :=
  let m1 : List String := if strIncludes (lowerStr key) term then [("name")] else []
  match lowerIncludesJ (jget comp ("title")) term with
  | .error e => .error e
  | .ok tb =>
    let m2 := if tb then m1 ++ [("title")] else m1
    match lowerIncludesJ (jget comp ("description")) term with
    | .error e => .error e
    | .ok db =>
      let m3 := if db then m2 ++ [("description")] else m2
      let m4 :=
        if optTruthy (jget comp ("props")) then
          m3 ++ (((match jget comp ("props") with
                   | some p => jsKeys p
                   | none => []).filter
              (fun p => strIncludes (lowerStr p) term)).map (fun p => ("prop:") ++ p))
        else m3
      .ok m4

/-- The component pass of `/mcp/search` over the dataset entries, skipping
the reserved key and recording entries with a non-empty match list. -/
def searchCompResults (term : String) : List (String × Json) →
    Except Unit (List SearchResult)
  | [] => .ok []
  | (key, v) :: rest =>
    if key = ("_tokens") then searchCompResults term rest
    else
      match entryMatches term key v with
      | .error e => .error e
      | .ok ms =>
        match searchCompResults term rest with
        | .error e => .error e
        | .ok tail =>
          if ms.isEmpty then .ok tail
          else .ok (⟨("component"), key, jget v ("title"), jget v ("description"),
            none, ms⟩ :: tail)

/-- The token pass of `/mcp/search`: entries of a truthy `_tokens` value
whose key or string value contains the term. -/
def searchTokResults (term : String) (data : JObj) : List SearchResult :=
  match alookup data ("_tokens") with
  | some tv =>
    if tv.truthy then
      (jsEntries tv).filterMap (fun p =>
        if strIncludes (lowerStr p.1) term ||
            (match p.2 with
             | .str s => strIncludes (lowerStr s) term
             | _ => false) then
          some ⟨("token"), p.1, none, none, some p.2, [("token")]⟩
        else none)
    else []
  | none => []

/-- An `/mcp/search` response body. -/
structure SearchResp where
  query : String
  count : Nat
  results : List SearchResult

/-- The embedding of the `/mcp/search` compute function. -/
def searchCompute (data : JObj) (q : String) : Except Unit SearchResp :=
  let term := lowerStr q
  match searchCompResults term data with
  | .error e => .error e
  | .ok cs =>
    let all := cs ++ searchTokResults term data
    .ok ⟨q, all.length, all⟩

/-! ## Tool server (`src/mcp-server.ts`) -/

/-- One row of the tool server's `search_components` result. -/
structure ToolComp where
  name : String
  title : Option Json
  description : Option Json
  hasProps : Bool
  hasExamples : Bool

/-- The embedding of `searchComponents`: non-reserved keys filtered by the
same name/title/description predicate, mapped to rows with the truthiness
flags. -/
def searchComponents (data : JObj) (query : String) :
    Except Unit (List ToolComp) :=
  let comps := (data.map Prod.fst).filter (fun k => k != ("_tokens"))
  match filterE (filtKey data (lowerStr query)) comps with
  | .error e => .error e
  | .ok filtered =>
    .ok (filtered.map (fun key =>
      let comp := alookup data key
      ⟨key, comp.bind (fun c => jget c ("title")),
        comp.bind (fun c => jget c ("description")),
        optTruthy (comp.bind (fun c => jget c ("props"))),
        optTruthy (examplesChain comp)⟩))

/-- The embedding of the tool server's `getComponent`: the same
lowercase-first lookup; a falsy result throws an error listing the first ten
non-reserved keys. -/
def getComponent (data : JObj) (name : String) : Except (List String) Json :=
  match jsOrLookup data name with
  | some c =>
    if c.truthy then .ok c else .error ((availableComponents data).take 10)
  | none => .error ((availableComponents data).take 10)

/-- One row of the tool server's `list_components` component list. -/
structure ListedComp where
  name : String
  title : Option Json
  description : Option Json

/-- The embedding of `listComponents`: counts plus a name/title/description
row per non-reserved key. -/
structure ListCompsResult where
  statsComponents : Nat
  statsTokens : Nat
  statsTotal : Nat
  components : List ListedComp

/-- The embedding of `listComponents`. -/
def listComponents (data : JObj) : ListCompsResult :=
  let comps := (data.map Prod.fst).filter (fun k => k != ("_tokens"))
  let tokenCount :=
    match alookup data ("_tokens") with
    | some v => if v.truthy then (jsKeys v).length else 0
    | none => 0
  ⟨comps.length, tokenCount, comps.length + tokenCount,
   comps.map (fun n =>
     ⟨n, (alookup data n).bind (fun c => jget c ("title")),
      (alookup data n).bind (fun c => jget c ("description"))⟩)⟩

/-! ## Memoization (`src/index.ts`, `cache` / `isCacheValid` /
`getCachedOrCompute`) -/

/-- The memoization time window (5 minutes in milliseconds). -/
def cacheTtl : Nat := 5 * 60 * 1000

/-- The server cache state relevant to `/mcp/components`: the components
result map and the shared timestamp map. -/
structure SrvCache where
  components : List (String × List Summary)
  timestamps : List (String × Nat)

/-- The embedding of `isCacheValid`. -/
def isCacheValid (timestamps : List (String × Nat)) (key : String) (now : Nat) :
    Bool :=
  match alookup timestamps key with
  | none => false
  | some t => now - t < cacheTtl

/-- The cache key of a `/mcp/components` request:
`q ? components:q : "components:all"` — note that the falsy values
`undefined` and the empty string, and the literal query `all`, all map to
the same key `components:all`. -/
def componentsCacheKey (q : Option String) : String :=
  match q with
  | some s => if s = "" then ("components:all") else ("components:") ++ s
  | none => ("components:all")

/-- The embedding of one `/mcp/components` request through
`getCachedOrCompute`: a present and valid cache entry is returned as is,
otherwise the compute function runs and (on success) its result is stored
with the current timestamp. -/
def componentsEndpoint (data : JObj) (st : SrvCache) (q : Option String)
    (now : Nat) : Except Unit (List Summary) × SrvCache :=
  let key := componentsCacheKey q
  match alookup st.components key with
  | some v =>
    if isCacheValid st.timestamps key now then (.ok v, st)
    else
      match componentsCompute data q with
      | .ok r => (.ok r, ⟨ainsert st.components key r, ainsert st.timestamps key now⟩)
      | .error e => (.error e, st)
  | none =>
    match componentsCompute data q with
    | .ok r => (.ok r, ⟨ainsert st.components key r, ainsert st.timestamps key now⟩)
    | .error e => (.error e, st)

theorem filterE_subset {p : String → Except Unit Bool} :
    ∀ {l res : List String}, filterE p l = .ok res → ∀ x ∈ res, x ∈ l := by
  intro l
  induction l with
  | nil =>
    intro res h x hx
    simp only [filterE] at h
    obtain rfl := Except.ok.inj h
    simp at hx
  | cons k rest ih =>
    intro res h x hx
    simp only [filterE] at h
    cases hp : p k with
    | error e => rw [hp] at h; exact Except.noConfusion h
    | ok b =>
      rw [hp] at h
      cases hf : filterE p rest with
      | error e => rw [hf] at h; exact Except.noConfusion h
      | ok tail =>
        rw [hf] at h
        obtain rfl := Except.ok.inj h
        cases b with
        | true =>
          rw [if_pos rfl] at hx
          rcases List.mem_cons.mp hx with h2 | h2
          · subst h2; exact List.mem_cons_self x rest
          · exact List.mem_cons_of_mem k (ih hf x h2)
        | false =>
          rw [if_neg (by simp)] at hx
          exact List.mem_cons_of_mem k (ih hf x hx)

theorem componentsCompute_keys {d : JObj} {q : Option String} {res : List Summary}
    (h : componentsCompute d q = .ok res) :
    ∃ keys : List String,
      (∀ x ∈ keys, x ∈ (d.map Prod.fst).filter (fun k => k != ("_tokens"))) ∧
      res = keys.map (mkSummary d) := by
  cases q with
  | none =>
    simp only [componentsCompute] at h
    obtain rfl := Except.ok.inj h
    exact ⟨(d.map Prod.fst).filter (fun k => k != ("_tokens")), fun x hx => hx, rfl⟩
  | some s =>
    simp only [componentsCompute] at h
    by_cases hs : s = ""
    · rw [if_pos hs] at h
      obtain rfl := Except.ok.inj h
      exact ⟨(d.map Prod.fst).filter (fun k => k != ("_tokens")), fun x hx => hx, rfl⟩
    · rw [if_neg hs] at h
      cases hf : filterE (filtKey d (lowerStr s))
          ((d.map Prod.fst).filter (fun k => k != ("_tokens"))) with
      | error e => rw [hf] at h; exact Except.noConfusion h
      | ok keys =>
        rw [hf] at h
        obtain rfl := Except.ok.inj h
        exact ⟨keys, fun x hx => filterE_subset hf x hx, rfl⟩

theorem searchCompResults_names {term : String} :
    ∀ {l : List (String × Json)} {res : List SearchResult},
      searchCompResults term l = .ok res →
      ∀ r ∈ res, r.rtype = ("component") ∧ r.name ≠ ("_tokens") := by
  intro l
  induction l with
  | nil =>
    intro res h r hr
    simp only [searchCompResults] at h
    obtain rfl := Except.ok.inj h
    simp at hr
  | cons p rest ih =>
    intro res h r hr
    obtain ⟨key, v⟩ := p
    simp only [searchCompResults] at h
    by_cases hk : key = ("_tokens")
    · rw [if_pos hk] at h
      exact ih h r hr
    · rw [if_neg hk] at h
      cases hm : entryMatches term key v with
      | error e => simp only [hm] at h; exact Except.noConfusion h
      | ok ms =>
        cases hrest : searchCompResults term rest with
        | error e => simp only [hm, hrest] at h; exact Except.noConfusion h
        | ok tail =>
          simp only [hm, hrest] at h
          by_cases hms : ms.isEmpty
          · rw [if_pos hms] at h
            obtain rfl := Except.ok.inj h
            exact ih hrest r hr
          · rw [if_neg hms] at h
            obtain rfl := Except.ok.inj h
            rcases List.mem_cons.mp hr with h2 | h2
            · subst h2; exact ⟨rfl, hk⟩
            · exact ih hrest r h2

theorem searchTokResults_rtype {term : String} {data : JObj} {r : SearchResult}
    (hr : r ∈ searchTokResults term data) : r.rtype = ("token") := by
  unfold searchTokResults at hr
  cases htk : alookup data ("_tokens") with
  | none => simp only [htk] at hr; simp at hr
  | some tv =>
    simp only [htk] at hr
    by_cases ht : tv.truthy
    · rw [if_pos ht] at hr
      obtain ⟨p, _, hp⟩ := List.mem_filterMap.mp hr
      split at hp
      · obtain rfl := Option.some.inj hp
        rfl
      · exact Option.noConfusion hp
    · rw [if_neg ht] at hr
      simp at hr

/-- C2.  For every dataset, the reserved key `_tokens` never names a
component in any component enumeration: the `/mcp/components` summaries for
every filter value, the component-typed results of `/mcp/search` for every
query, and the tool server's `search_components` and `list_components`
results for every query. -/
theorem reserved_key_excluded (d : JObj) (q : String) (qo : Option String) :
    (∀ res, componentsCompute d qo = .ok res → ∀ s ∈ res, s.name ≠ ("_tokens")) ∧
    (∀ resp, searchCompute d q = .ok resp → ∀ r ∈ resp.results,
      r.rtype = ("component") → r.name ≠ ("_tokens")) ∧
    (∀ cs, searchComponents d q = .ok cs → ∀ c ∈ cs, c.name ≠ ("_tokens")) ∧
    (∀ c ∈ (listComponents d).components, c.name ≠ ("_tokens")) := by
  refine ⟨?_, ?_, ?_, ?_⟩
  · intro res h s hs
    obtain ⟨keys, hsub, rfl⟩ := componentsCompute_keys h
    obtain ⟨key, hkey, rfl⟩ := List.mem_map.mp hs
    have hmem := hsub key hkey
    have := List.mem_filter.mp hmem
    have hne : key ≠ ("_tokens") := by simpa using this.2
    exact hne
  · intro resp h r hr hcomp
    simp only [searchCompute] at h
    cases hc : searchCompResults (lowerStr q) d with
    | error e => simp only [hc] at h; exact Except.noConfusion h
    | ok cs =>
      simp only [hc] at h
      obtain rfl := Except.ok.inj h
      rcases List.mem_append.mp hr with h2 | h2
      · exact (searchCompResults_names hc r h2).2
      · have := searchTokResults_rtype h2
        rw [hcomp] at this
        exact absurd this.symm (by decide)
  · intro cs h c hc
    simp only [searchComponents] at h
    cases hf : filterE (filtKey d (lowerStr q))
        ((d.map Prod.fst).filter (fun k => k != ("_tokens"))) with
    | error e => simp only [hf] at h; exact Except.noConfusion h
    | ok filtered =>
      simp only [hf] at h
      obtain rfl := Except.ok.inj h
      obtain ⟨key, hkey, rfl⟩ := List.mem_map.mp hc
      have hmem := filterE_subset hf key hkey
      have := List.mem_filter.mp hmem
      simpa using this.2
  · intro c hc
    unfold listComponents at hc
    obtain ⟨key, hkey, rfl⟩ := List.mem_map.mp hc
    have := List.mem_filter.mp hkey
    simpa using this.2

/-- C2 witness dataset, containing the reserved key and one component. -/
def dW2 : JObj :=
  [(("_tokens"), Json.obj [(("--p-x"), Json.str ("v"))]), (("button"), Json.obj [])]

/-- C2 witness: the theorem applied to `dW2` with no filter; the summary
produced for `button` is not named `_tokens`. -/
theorem reserved_key_excluded_witness : (("button") : String) ≠ ("_tokens") := by
  have h := (reserved_key_excluded dW2 ("b") none).1
    [mkSummary dW2 ("button")] rfl (mkSummary dW2 ("button"))
    (List.mem_singleton.mpr rfl)
  exact h

/-- C3 (amended).  The component lookup of `GET /mcp/component/:name` and of
the tool server's `get_component` tries the lowercased requested name first
and the exact requested name second: whenever a dataset key equal to the
lowercased requested name holds a truthy record, that record is returned,
even if a different key exactly equal to the requested name also exists. -/
theorem component_lookup_lowercase_first (data : JObj) (name : String) (v : Json)
    (h1 : alookup data (lowerStr name) = some v) (h2 : v.truthy = true) :
    componentHandler data name none = .ok v ∧ getComponent data name = .ok v := by
  have hor : jsOrLookup data name = some v := by
    simp only [jsOrLookup, h1]
    rw [if_pos h2]
  constructor
  · rw [componentHandler, hor]
    simp [h2]
  · rw [getComponent, hor]
    simp [h2]

/-- C3 witness dataset: only the lowercase key exists. -/
def dC3w : JObj := [(("button"), Json.obj [(("title"), Json.str ("B"))])]

/-- C3 witness: requesting `Button` against a dataset holding only `button`
returns the `button` record, through both servers. -/
theorem component_lookup_lowercase_first_witness :
    componentHandler dC3w ("Button") none = .ok (Json.obj [(("title"), Json.str ("B"))]) ∧
    getComponent dC3w ("Button") = .ok (Json.obj [(("title"), Json.str ("B"))]) := by
  exact component_lookup_lowercase_first dC3w ("Button")
    (Json.obj [(("title"), Json.str ("B"))]) rfl rfl

/-- C3 counterexample dataset: both `button` and `Button` are keys, with
different records. -/
def dC3 : JObj :=
  [(("button"), Json.obj [(("description"), Json.str ("lower"))]),
   (("Button"), Json.obj [(("description"), Json.str ("upper"))])]

/-- C3 counterexample: requesting `Button` when both `Button` and `button`
are dataset keys returns the record stored under `button` (the lowercased
name is tried first), not the record stored under the exactly-matching key
`Button`, refuting C3 as stated. -/
theorem component_lookup_case_sensitive_refuted :
    componentHandler dC3 ("Button") none
      = .ok (Json.obj [(("description"), Json.str ("lower"))]) ∧
    getComponent dC3 ("Button")
      = .ok (Json.obj [(("description"), Json.str ("lower"))]) ∧
    alookup dC3 ("Button") = some (Json.obj [(("description"), Json.str ("upper"))]) ∧
    Json.obj [(("description"), Json.str ("lower"))]
      ≠ Json.obj [(("description"), Json.str ("upper"))] := by
  refine ⟨rfl, rfl, rfl, ?_⟩
  intro h
  have hs := congrArg (fun j => match j with
    | Json.obj ((_, Json.str s2) :: _) => s2
    | _ => ("")) h
  have hs2 : (("lower") : String) = ("upper") := hs
  exact absurd hs2 (by decide)

/-- C6.  For every dataset and requested name matching no dataset key
exactly nor after lowercasing, the `GET /mcp/component/:name` handler
responds not-found with an `available` list equal to the dataset's keys with
the reserved `_tokens` key removed (for any `section` query). -/
theorem component_not_found_available (data : JObj) (name : String)
    (sect : Option String)
    (h1 : alookup data (lowerStr name) = none) (h2 : alookup data name = none) :
    componentHandler data name sect
      = .notFoundComp ((data.map Prod.fst).filter (fun k => k != ("_tokens"))) := by
  have hor : jsOrLookup data name = none := by
    rw [jsOrLookup, h1, h2]
  rw [componentHandler, hor]
  rfl

/-- C6 witness dataset. -/
def dC6 : JObj :=
  [(("button"), Json.obj []), (("_tokens"), Json.obj [(("--p-x"), Json.str ("v"))])]

/-- C6 witness: requesting the unknown name `zzz` yields a not-found whose
`available` list holds exactly the non-reserved key `button`. -/
theorem component_not_found_available_witness :
    componentHandler dC6 ("zzz") none = .notFoundComp [("button")] := by
  have h := component_not_found_available dC6 ("zzz") none rfl rfl
  exact h

/-- C8.  Every summary of a `/mcp/components` result reflects its component
record exactly: `hasProps` is true exactly when the record has a `props`
field, and `hasExamples` is true exactly when the record has a non-empty
`examples` array — for records that are well-formed per the data model
(`props` an object when present, `examples` an array when present). -/
theorem components_summary_flags (data : JObj) (q : Option String)
    (res : List Summary) (h : componentsCompute data q = .ok res)
    (s : Summary) (hs : s ∈ res) (c : Json) (hc : alookup data s.name = some c)
    (hp : ∀ p, jget c ("props") = some p → ∃ fs, p = Json.obj fs)
    (he : ∀ e, jget c ("examples") = some e → ∃ xs, e = Json.arr xs) :
    (s.hasProps = true ↔ (jget c ("props")).isSome = true) ∧
    (s.hasExamples = true ↔ ∃ xs, jget c ("examples") = some (Json.arr xs) ∧ xs ≠ []) := by
  obtain ⟨keys, hsub, rfl⟩ := componentsCompute_keys h
  obtain ⟨key, hkey, rfl⟩ := List.mem_map.mp hs
  have hname : (mkSummary data key).name = key := rfl
  rw [hname] at hc
  have hhp : (mkSummary data key).hasProps
      = optTruthy ((alookup data key).bind (fun c => jget c ("props"))) := rfl
  have hhe : (mkSummary data key).hasExamples
      = optTruthy (examplesChain (alookup data key)) := rfl
  constructor
  · rw [hhp, hc, Option.some_bind]
    cases hpv : jget c ("props") with
    | none => simp [optTruthy]
    | some p =>
      obtain ⟨fs, rfl⟩ := hp p hpv
      simp [optTruthy, Json.truthy]
  · rw [hhe]
    have hchain : examplesChain (alookup data key)
        = match jget c ("examples") with
          | none => none
          | some .null => none
          | some v => jsDotLength v := by
      rw [examplesChain, hc, Option.some_bind]
    cases hev : jget c ("examples") with
    | none =>
      rw [hchain, hev]
      simp [optTruthy]
    | some e =>
      obtain ⟨xs, rfl⟩ := he e hev
      rw [hchain, hev]
      constructor
      · intro hflag
        refine ⟨xs, rfl, ?_⟩
        simp only [jsDotLength, optTruthy, Json.truthy] at hflag
        intro hnil
        subst hnil
        simp at hflag
      · rintro ⟨xs2, heq, hne⟩
        have hxs : xs2 = xs := by
          have := Option.some.inj heq
          exact (Json.arr.inj this).symm
        subst hxs
        simp only [jsDotLength, optTruthy, Json.truthy]
        simpa using hne

/-- C8 witness dataset: one component with an empty `props` object and one
example. -/
def dC8 : JObj :=
  [(("x"), Json.obj [(("props"), Json.obj []),
    (("examples"), Json.arr [Json.str ("e")])])]

/-- The C8 witness component record. -/
def cC8 : Json :=
  Json.obj [(("props"), Json.obj []), (("examples"), Json.arr [Json.str ("e")])]

/-- C8 witness: the theorem applied at `dC8` — the single summary has both
flags true, matching the present `props` object and non-empty `examples`
array. -/
theorem components_summary_flags_witness :
    (mkSummary dC8 ("x")).hasProps = true ∧ (mkSummary dC8 ("x")).hasExamples = true := by
  have h := components_summary_flags dC8 none [mkSummary dC8 ("x")] rfl
    (mkSummary dC8 ("x")) (List.mem_singleton.mpr rfl) cC8 rfl
    (by
      intro p hp2
      rw [show jget cC8 ("props") = some (Json.obj []) from rfl] at hp2
      exact ⟨[], (Option.some.inj hp2).symm⟩)
    (by
      intro e he2
      rw [show jget cC8 ("examples") = some (Json.arr [Json.str ("e")]) from rfl] at he2
      exact ⟨[Json.str ("e")], (Option.some.inj he2).symm⟩)
  refine ⟨h.1.mpr rfl, h.2.mpr ⟨[Json.str ("e")], rfl, by simp⟩⟩

/-- C10 failing dataset: `allday` matches the filter `all`, `button` does
not. -/
def dC10 : JObj :=
  [(("button"), Json.obj [(("title"), Json.str ("Button"))]), (("allday"), Json.obj [])]

/-- The summary of `button` in `dC10`. -/
def sButtonC10 : Summary := ⟨("button"), some (Json.str ("Button")), none, false, false, []⟩

/-- The summary of `allday` in `dC10`. -/
def sAlldayC10 : Summary := ⟨("allday"), none, none, false, false, []⟩

/-- C10 (code bug).  The memoization is not observationally transparent: the
cache key of `/mcp/components` maps the filter value `all` and the absent
filter to the same key `components:all`.  After an unfiltered request at
time 0, a request with `q = all` at time 1000 (within the TTL) is served the
cached unfiltered list, while the compute function applied to the dataset
and `q = all` returns only the matching component. -/
theorem components_cache_collision :
    (componentsEndpoint dC10 (componentsEndpoint dC10 ⟨[], []⟩ none 0).2
        (some ("all")) 1000).1 = .ok [sButtonC10, sAlldayC10] ∧
    componentsCompute dC10 (some ("all")) = .ok [sAlldayC10] ∧
    (componentsEndpoint dC10 (componentsEndpoint dC10 ⟨[], []⟩ none 0).2
        (some ("all")) 1000).1 ≠ componentsCompute dC10 (some ("all")) := by
  refine ⟨rfl, rfl, ?_⟩
  intro h
  have h1 : (Except.ok [sButtonC10, sAlldayC10] : Except Unit (List Summary))
      = Except.ok [sAlldayC10] := h
  have h2 := congrArg (fun r => match r with
    | Except.ok l => l.length
    | Except.error _ => 0) h1
  have h3 : (2 : Nat) = 1 := h2
  exact absurd h3 (by decide)
